import Mathlib

/-!
Shallow embedding of the numeric core and application state machine of the
`convolution` repository (src/app.rs).

Modelling conventions:
* Rust `f32` values are modelled as exact rationals (`ℚ`); the claims settled
  here concern the structure of the computations (which terms enter a sum,
  which state fields are written), not binary floating-point rounding.
* `usize` is modelled as `ℕ`, `isize` as `ℤ`.
* Decoded images (`image::GrayImage`) are width/height plus a row-major pixel
  buffer; `image::load_from_memory` results are modelled as `Option GrayImage`.
* The egui texture handles and layout code are UI glue outside the embedding;
  the state machine keeps exactly the fields of `ConvolutionApp` that the
  core logic reads or writes.
-/

/-- Rust `f32::round()` followed by `as usize` (source: `(x).round() as usize`):
round half away from zero; a negative result saturates to 0.  All uses in the
source are on non-negative values, where this equals `⌊q + 1/2⌋`. -/
def rustRound (q : ℚ) : ℕ := (Int.floor (q + 1/2)).toNat

/-- Rust `f32::clamp(lo, hi)`. -/
def rustClamp (q lo hi : ℚ) : ℚ := max lo (min q hi)

/-- Rust `as u8` cast of an `f32`: saturating at the bounds of `u8`,
truncating toward zero in range. -/
def rustAsU8 (q : ℚ) : ℕ :=
  if q ≤ 0 then 0 else if (255 : ℚ) ≤ q then 255 else (Int.floor q).toNat

/-- `const PREVIEW_MAX_SIZE: usize = 256;` (src/app.rs:5). -/
def PREVIEW_MAX_SIZE : ℕ := 256

/-- A decoded 8-bit grayscale image: row-major pixel buffer of
`width * height` intensities in `[0, 255]` (`image::GrayImage`). -/
structure GrayImage where
  width : ℕ
  height : ℕ
  pixels : List ℕ
deriving DecidableEq

/-- `GrayImage::get_pixel(x, y)[0]`: row-major lookup. -/
def GrayImage.get_pixel (img : GrayImage) (x y : ℕ) : ℕ :=
  img.pixels.getD (y * img.width + x) 0

/-- `fn gray_to_f32` (src/app.rs:329-331): normalize each intensity to
`p / 255.0`. -/
def gray_to_f32 (img : GrayImage) : List ℚ :=
  img.pixels.map (fun p => (p : ℚ) / 255)

/-- `enum KernelShape` (src/app.rs:7-11). -/
inductive KernelShape where
  | ThreeBySix
  | SixByThree
deriving DecidableEq

/-- `KernelShape::width` (src/app.rs:14-19). -/
def KernelShape.width : KernelShape → ℕ
  | .ThreeBySix => 3
  | .SixByThree => 6

/-- `KernelShape::height` (src/app.rs:21-26). -/
def KernelShape.height : KernelShape → ℕ
  | .ThreeBySix => 6
  | .SixByThree => 3

/-- `fn convolve_same` (src/app.rs:333-363): same-size 2D correlation.
Output slot `y * width + x` accumulates, over `ky in 0..kh`, `kx in 0..kw`,
the term `input[iy*width+ix] * kernel[ky*kw+kx]` whenever the sampled
coordinate `(ix, iy)` is inside the image, skipping the term otherwise. -/
def convolve_same (input : List ℚ) (width height : ℕ) (kernel : List ℚ)
    (kw kh : ℕ) : List ℚ :=
  let kcx := kw / 2
  let kcy := kh / 2
  (List.range height).flatMap (fun (y : ℕ) =>
    (List.range width).map (fun (x : ℕ) =>
      (List.range kh).foldl (fun acc (ky : ℕ) =>
        (List.range kw).foldl (fun acc (kx : ℕ) =>
          let ix : ℤ := (x : ℤ) + (kx : ℤ) - (kcx : ℤ)
          let iy : ℤ := (y : ℤ) + (ky : ℤ) - (kcy : ℤ)
          if 0 ≤ ix ∧ 0 ≤ iy ∧ ix < (width : ℤ) ∧ iy < (height : ℤ) then
            acc + input.getD (iy.toNat * width + ix.toNat) 0 *
              kernel.getD (ky * kw + kx) 0
          else acc) acc) 0))

/-- The kernel list built by the loops of `ConvolutionApp::split_kernels`
(src/app.rs:167-179): for `row in 0..rows`, `col in 0..cols`, emit the kernel
read row-major (`ky in 0..kh`, `kx in 0..kw`) from the sheet region anchored
at `(col*kw, row*kh)`, each pixel mapped to `(p / 255.0) * 2.0 - 1.0`. -/
def split_kernels_list (sheet : GrayImage) (kw kh : ℕ) : List (List ℚ) :=
  (List.range (sheet.height / kh)).flatMap (fun row =>
    (List.range (sheet.width / kw)).map (fun col =>
      (List.range kh).flatMap (fun ky =>
        (List.range kw).map (fun kx =>
          ((sheet.get_pixel (col * kw + kx) (row * kh + ky) : ℚ) / 255) * 2 - 1))))

/-- `fn min_max` (src/app.rs:396-412).  The source folds with `±INFINITY`
sentinels and maps a still-infinite result (empty input) to `(0.0, 0.0)`;
over ℚ (no infinities) this is: empty list ↦ `(0, 0)`, otherwise the running
minimum and maximum of the values. -/
def min_max : List ℚ → ℚ × ℚ
  | [] => (0, 0)
  | v :: vs =>
    vs.foldl (fun p w => (if w < p.1 then w else p.1, if w > p.2 then w else p.2))
      (v, v)

/-- `fn resize_nearest` (src/app.rs:384-394): nearest-neighbour resample,
destination pixel `(x, y)` reads source pixel `(x*src_w/dst_w, y*src_h/dst_h)`
(integer floor division). -/
def resize_nearest (src : List ℚ) (src_w src_h dst_w dst_h : ℕ) : List ℚ :=
  (List.range dst_h).flatMap (fun y =>
    (List.range dst_w).map (fun x =>
      let sx := x * src_w / dst_w
      let sy := y * src_h / dst_h
      src.getD (sy * src_w + sx) 0))

/-- `fn build_preview` (src/app.rs:365-382): shrink to at most `max_dim` per
axis (never below 1), then min/max-normalize the resized values into bytes.
The Rust byte conversion is `(((v - min_v) / range) * 255.0).clamp(0.0, 255.0)
as u8` — clamp, then truncate. -/
def build_preview (src : List ℚ) (width height max_dim : ℕ) :
    ℕ × ℕ × List ℕ :=
  let scale : ℚ := min ((max_dim : ℚ) / (max width height : ℕ)) 1
  let out_w := max (rustRound ((width : ℚ) * scale)) 1
  let out_h := max (rustRound ((height : ℚ) * scale)) 1
  let resized := resize_nearest src width height out_w out_h
  let mm := min_max resized
  let range : ℚ := max (mm.2 - mm.1) (1 / 1000000)
  let bytes := resized.map (fun v =>
    rustAsU8 (rustClamp ((v - mm.1) / range * 255) 0 255))
  (out_w, out_h, bytes)

/-- The scalar score of a response map (src/app.rs:210):
`response.iter().map(|v| v.abs()).sum::<f32>() / response.len() as f32`. -/
def score_of (response : List ℚ) : ℚ :=
  (response.map (fun v => |v|)).sum / (response.length : ℚ)

/-- `struct ConvolutionPreview` (src/app.rs:43-49). -/
structure ConvolutionPreview where
  score : ℚ
  width : ℕ
  height : ℕ
  bytes : List ℕ
deriving DecidableEq

/-- The state of `ConvolutionApp` (src/app.rs:51-61), keeping the fields the
core logic reads or writes (texture handles are display-only glue). -/
structure AppState where
  slide : Option GrayImage
  kernels_sheet : Option GrayImage
  kernel_shape : KernelShape
  kernels : List (List ℚ)
  kernel_rows : ℕ
  kernel_cols : ℕ
  previews : List ConvolutionPreview
  selected_kernel : ℕ
  status : String
deriving DecidableEq

/-- `ConvolutionApp::default` (src/app.rs:63-77). -/
def initialApp : AppState where
  slide := none
  kernels_sheet := none
  kernel_shape := .ThreeBySix
  kernels := []
  kernel_rows := 0
  kernel_cols := 0
  previews := []
  selected_kernel := 0
  status := "Drop two PNG files in the window: first the histological slide, then the kernels sheet."

/-- `ConvolutionApp::load_png_into_slot` (src/app.rs:105-140).  `decoded`
is the result of `image::load_from_memory(&bytes)` followed by `to_luma8`;
on success the chosen slot is replaced and the kernel bank, previews and
selection are reset; on failure only the status message changes. -/
def load_png_into_slot (s : AppState) (decoded : Option GrayImage)
    (is_slide : Bool) : AppState :=
  match decoded with
  | some gray =>
    let s1 := if is_slide then { s with slide := some gray }
              else { s with kernels_sheet := some gray }
    { s1 with
      kernels := []
      previews := []
      selected_kernel := 0
      status := "Image loaded. Choose kernel shape and press Split kernels." }
  | none => { s with status := "Failed to decode PNG." }

/-- One iteration of the loop in `ConvolutionApp::handle_dropped_files`
(src/app.rs:84-103).  `file = none` models `extract_bytes` failing;
`file = some decoded` carries the decode result for the dropped bytes. -/
def handle_dropped_file (s : AppState) (file : Option (Option GrayImage)) :
    AppState :=
  match file with
  | none => { s with status := "Could not read dropped file bytes." }
  | some decoded =>
    if s.slide.isNone then load_png_into_slot s decoded true
    else if s.kernels_sheet.isNone then load_png_into_slot s decoded false
    else { s with status := "Both image slots are already filled. Use Reset to load different files." }

/-- `ConvolutionApp::split_kernels` (src/app.rs:142-187).  On a dimension
mismatch the method sets the status and returns *before* touching the kernel
bank or previews; on success it replaces the bank wholesale and clears the
previews and the selection. -/
def split_kernels (s : AppState) : AppState :=
  match s.kernels_sheet with
  | none => { s with status := "Load the kernels sheet first." }
  | some sheet =>
    let kw := s.kernel_shape.width
    let kh := s.kernel_shape.height
    let w := sheet.width
    let h := sheet.height
    if w % kw ≠ 0 ∨ h % kh ≠ 0 then
      { s with status := s!"Kernel sheet size {w}x{h} is not divisible by kernel size {kw}x{kh}." }
    else
      let ks := split_kernels_list sheet kw kh
      let n := ks.length
      { s with
        kernel_cols := w / kw
        kernel_rows := h / kh
        kernels := ks
        previews := []
        selected_kernel := 0
        status := s!"Split into {n} kernels." }

/-- `ConvolutionApp::run_all_convolutions` (src/app.rs:189-221).  Guard
conditions (no slide / empty bank) set only the status; otherwise the preview
list is rebuilt wholesale, one entry per kernel in bank order. -/
def run_all_convolutions (s : AppState) : AppState :=
  match s.slide with
  | none => { s with status := "Load the histological slide first." }
  | some slide =>
    if s.kernels = [] then { s with status := "Split kernels first." }
    else
      let input := gray_to_f32 slide
      let width := slide.width
      let height := slide.height
      let kw := s.kernel_shape.width
      let kh := s.kernel_shape.height
      let previews := s.kernels.map (fun kernel =>
        let response := convolve_same input width height kernel kw kh
        let score := score_of response
        let p := build_preview response width height PREVIEW_MAX_SIZE
        ({ score := score, width := p.1, height := p.2.1, bytes := p.2.2 } :
          ConvolutionPreview))
      { s with previews := previews, status := "Computed convolution maps." }

/-- Selecting a kernel shape with the radio buttons (src/app.rs:234-247):
`ui.radio_value(&mut self.kernel_shape, …)` writes only `kernel_shape`. -/
def set_kernel_shape (s : AppState) (sh : KernelShape) : AppState :=
  { s with kernel_shape := sh }

/-- The per-frame clamp of the selection when previews exist
(src/app.rs:267-270). -/
def clamp_selected (s : AppState) : AppState :=
  if s.previews = [] then s
  else { s with selected_kernel := min s.selected_kernel (s.previews.length - 1) }

/-- Moving the kernel-index slider (src/app.rs:271-274): the slider range is
`0..=previews.len() - 1` and only exists when previews are non-empty. -/
def select_kernel (s : AppState) (i : ℕ) : AppState :=
  if s.previews ≠ [] ∧ i < s.previews.length then { s with selected_kernel := i }
  else s

/-- The application states reachable from `ConvolutionApp::default()` by the
events the UI can fire: dropping a file, selecting a shape, the two buttons,
Reset, and the per-frame selection clamp / slider. -/
inductive Reachable : AppState → Prop where
  | init : Reachable initialApp
  | drop {s} (f : Option (Option GrayImage)) :
      Reachable s → Reachable (handle_dropped_file s f)
  | shape {s} (sh : KernelShape) :
      Reachable s → Reachable (set_kernel_shape s sh)
  | split {s} : Reachable s → Reachable (split_kernels s)
  | run {s} : Reachable s → Reachable (run_all_convolutions s)
  | reset {s} : Reachable s → Reachable initialApp
  | clamp {s} : Reachable s → Reachable (clamp_selected s)
  | select {s} (i : ℕ) : Reachable s → Reachable (select_kernel s i)

/-! ### Shared lemmas about the row-major loop encodings -/

/-- A row-major double loop produces `h * w` entries. -/
theorem length_gridList {α : Type} (h w : ℕ) (f : ℕ → ℕ → α) :
    ((List.range h).flatMap (fun y => (List.range w).map (f y))).length = h * w := by
  rw [List.length_flatMap]
  simp [Function.comp_def, List.map_const', List.sum_replicate, smul_eq_mul]

/-- Indexing a row-major double loop at slot `y * w + x`. -/
theorem getD_gridList {α : Type} {h w y x : ℕ} {f : ℕ → ℕ → α} {d : α}
    (hy : y < h) (hx : x < w) :
    ((List.range h).flatMap (fun y => (List.range w).map (f y))).getD (y * w + x) d
      = f y x := by
  induction h with
  | zero => omega
  | succ n ih =>
    rw [List.range_succ, List.flatMap_append]
    rcases Nat.lt_or_ge y n with hy' | hy'
    · have hlen : y * w + x < ((List.range n).flatMap
          (fun y => (List.range w).map (f y))).length := by
        rw [length_gridList]
        have h1 : y * w + w ≤ n * w := by
          calc y * w + w = (y + 1) * w := by ring
            _ ≤ n * w := Nat.mul_le_mul_right w (Nat.succ_le_of_lt hy')
        omega
      rw [List.getD_append _ _ _ _ hlen]
      exact ih hy'
    · have hyn : y = n := by omega
      subst hyn
      have hlen : ((List.range y).flatMap
          (fun y => (List.range w).map (f y))).length = y * w := length_gridList ..
      rw [List.getD_append_right _ _ _ _ (by rw [hlen]; omega)]
      rw [hlen]
      have hidx : y * w + x - y * w = x := by omega
      rw [hidx]
      simp only [List.flatMap_cons, List.flatMap_nil, List.append_nil]
      rw [List.getD_eq_getElem?_getD, List.getElem?_map, List.getElem?_range hx]
      rfl

/-- Folding `+` over a list, starting from `a`. -/
theorem foldl_add_eq (l : List ℕ) (g : ℕ → ℚ) (a : ℚ) :
    l.foldl (fun acc i => acc + g i) a = a + (l.map g).sum := by
  induction l generalizing a with
  | nil => simp
  | cons hd tl ih => simp [ih, add_assoc]

/-- Folding a guarded accumulation equals adding the guarded terms. -/
theorem foldl_ite_add_eq (l : List ℕ) (c : ℕ → Prop) [DecidablePred c]
    (g : ℕ → ℚ) (a : ℚ) :
    l.foldl (fun acc i => if c i then acc + g i else acc) a
      = a + (l.map (fun i => if c i then g i else 0)).sum := by
  induction l generalizing a with
  | nil => simp
  | cons hd tl ih =>
    by_cases hc : c hd <;> simp [hc, ih, add_assoc]

/-- A mapped list sum over `List.range` is the `Finset.range` sum. -/
theorem sum_map_range (n : ℕ) (g : ℕ → ℚ) :
    ((List.range n).map g).sum = ∑ i ∈ Finset.range n, g i := by
  induction n with
  | zero => simp
  | succ m ih => simp [List.range_succ, Finset.sum_range_succ, ih]

/-! ### The convolution loop as a mathematical double sum -/

/-- The accumulation loops of `convolve_same` at output pixel `(x, y)` compute
the double sum over kernel taps, with out-of-range samples skipped. -/
theorem convolve_same_getD (input : List ℚ) (w h : ℕ) (kernel : List ℚ)
    (kw kh : ℕ) {x y : ℕ} (hx : x < w) (hy : y < h) :
    (convolve_same input w h kernel kw kh).getD (y * w + x) 0 =
      ∑ ky ∈ Finset.range kh, ∑ kx ∈ Finset.range kw,
        if 0 ≤ (x : ℤ) + kx - (kw / 2 : ℕ) ∧ 0 ≤ (y : ℤ) + ky - (kh / 2 : ℕ) ∧
            (x : ℤ) + kx - (kw / 2 : ℕ) < (w : ℤ) ∧
            (y : ℤ) + ky - (kh / 2 : ℕ) < (h : ℤ)
        then input.getD (((y : ℤ) + ky - (kh / 2 : ℕ)).toNat * w +
            ((x : ℤ) + kx - (kw / 2 : ℕ)).toNat) 0 * kernel.getD (ky * kw + kx) 0
        else 0 := by
  simp only [convolve_same]
  rw [getD_gridList hy hx]
  have hinner : ∀ (acc : ℚ), ∀ ky ∈ List.range kh,
      (List.range kw).foldl (fun acc (kx : ℕ) =>
        if 0 ≤ (x : ℤ) + kx - (kw / 2 : ℕ) ∧ 0 ≤ (y : ℤ) + ky - (kh / 2 : ℕ) ∧
            (x : ℤ) + kx - (kw / 2 : ℕ) < (w : ℤ) ∧
            (y : ℤ) + ky - (kh / 2 : ℕ) < (h : ℤ)
        then acc + input.getD (((y : ℤ) + ky - (kh / 2 : ℕ)).toNat * w +
            ((x : ℤ) + kx - (kw / 2 : ℕ)).toNat) 0 * kernel.getD (ky * kw + kx) 0
        else acc) acc
      = acc + ((List.range kw).map (fun (kx : ℕ) =>
          if 0 ≤ (x : ℤ) + kx - (kw / 2 : ℕ) ∧ 0 ≤ (y : ℤ) + ky - (kh / 2 : ℕ) ∧
              (x : ℤ) + kx - (kw / 2 : ℕ) < (w : ℤ) ∧
              (y : ℤ) + ky - (kh / 2 : ℕ) < (h : ℤ)
          then input.getD (((y : ℤ) + ky - (kh / 2 : ℕ)).toNat * w +
              ((x : ℤ) + kx - (kw / 2 : ℕ)).toNat) 0 * kernel.getD (ky * kw + kx) 0
          else 0)).sum := by
    intro acc ky _
    exact foldl_ite_add_eq (List.range kw) _ _ acc
  rw [List.foldl_ext _ _ 0 hinner, foldl_add_eq, zero_add, sum_map_range]
  exact Finset.sum_congr rfl (fun ky _ => (sum_map_range kw _).symm) |>.symm |>.symm

/-- C1: for every target image of width `w ≥ 1` and height `h ≥ 1` (pixels
normalized to `[0,1]` by dividing by 255.0) and every kernel of `kw*kh`
weights, the convolution output has exactly `w*h` values, and the value at
pixel `(x, y)` is the sum over `(kx, ky) ∈ [0,kw) × [0,kh)` of
`input[y+ky-kcy, x+kx-kcx] * kernel[ky*kw+kx]` with `kcx = kw/2`,
`kcy = kh/2` (floor division), terms with out-of-range sampled coordinates
skipped. -/
theorem C1_convolve_same_spec (img : GrayImage) (kernel : List ℚ) (kw kh : ℕ)
    (_hw : 1 ≤ img.width) (_hh : 1 ≤ img.height) :
    (convolve_same (gray_to_f32 img) img.width img.height kernel kw kh).length
        = img.width * img.height ∧
    ∀ x y, x < img.width → y < img.height →
      (convolve_same (gray_to_f32 img) img.width img.height kernel kw kh).getD
          (y * img.width + x) 0 =
        ∑ ky ∈ Finset.range kh, ∑ kx ∈ Finset.range kw,
          if 0 ≤ (x : ℤ) + kx - (kw / 2 : ℕ) ∧ 0 ≤ (y : ℤ) + ky - (kh / 2 : ℕ) ∧
              (x : ℤ) + kx - (kw / 2 : ℕ) < (img.width : ℤ) ∧
              (y : ℤ) + ky - (kh / 2 : ℕ) < (img.height : ℤ)
          then (gray_to_f32 img).getD
              (((y : ℤ) + ky - (kh / 2 : ℕ)).toNat * img.width +
                ((x : ℤ) + kx - (kw / 2 : ℕ)).toNat) 0 *
              kernel.getD (ky * kw + kx) 0
          else 0 := by
  constructor
  · simp only [convolve_same]
    rw [length_gridList, Nat.mul_comm]
  · intro x y hx hy
    exact convolve_same_getD (gray_to_f32 img) img.width img.height kernel kw kh hx hy

/-- Witness for C1 at a concrete 2×2 image and 3×6 kernel. -/
theorem C1_convolve_same_spec_witness :
    1 ≤ (GrayImage.mk 2 2 [0, 255, 255, 0]).width ∧
    (convolve_same (gray_to_f32 ⟨2, 2, [0, 255, 255, 0]⟩) 2 2
        (List.replicate 18 1) 3 6).length = 2 * 2 :=
  ⟨by decide,
    (C1_convolve_same_spec ⟨2, 2, [0, 255, 255, 0]⟩ (List.replicate 18 1) 3 6
      (by decide) (by decide)).1⟩

/-! ### Splitting the kernel sheet -/

/-- A pixel read through `get_pixel` is bounded by 255 whenever the buffer's
intensities are (the out-of-buffer default is 0). -/
theorem get_pixel_le_255 (sheet : GrayImage)
    (hpix : ∀ p ∈ sheet.pixels, p ≤ 255) (x y : ℕ) :
    sheet.get_pixel x y ≤ 255 := by
  unfold GrayImage.get_pixel
  by_cases hl : y * sheet.width + x < sheet.pixels.length
  · rw [List.getD_eq_getElem _ _ hl]
    exact hpix _ (List.getElem_mem hl)
  · rw [List.getD_eq_default _ _ (Nat.le_of_not_lt hl)]
    omega

/-- C2: for every sheet image with `width % kw = 0` and `height % kh = 0`,
splitting yields exactly `(width/kw)*(height/kh)` kernels in row-major grid
order, each of length `kw*kh`, with the weight at tap `(kx, ky)` of grid cell
`(row, col)` equal to `(p/255)*2 - 1` for the source pixel
`(col*kw+kx, row*kh+ky)`, and every weight in `[-1, 1]`. -/
theorem C2_split_kernels_spec (sheet : GrayImage) (shape : KernelShape)
    (hpix : ∀ p ∈ sheet.pixels, p ≤ 255)
    (_hdw : sheet.width % shape.width = 0)
    (_hdh : sheet.height % shape.height = 0) :
    (split_kernels_list sheet shape.width shape.height).length
        = (sheet.width / shape.width) * (sheet.height / shape.height) ∧
    (∀ k ∈ split_kernels_list sheet shape.width shape.height,
        k.length = shape.width * shape.height) ∧
    (∀ row col ky kx, row < sheet.height / shape.height →
        col < sheet.width / shape.width → ky < shape.height → kx < shape.width →
        ((split_kernels_list sheet shape.width shape.height).getD
            (row * (sheet.width / shape.width) + col) []).getD
            (ky * shape.width + kx) 0
          = ((sheet.get_pixel (col * shape.width + kx)
                (row * shape.height + ky) : ℚ) / 255) * 2 - 1) ∧
    (∀ k ∈ split_kernels_list sheet shape.width shape.height, ∀ wgt ∈ k,
        -1 ≤ wgt ∧ wgt ≤ 1) := by
  have hmem : ∀ k ∈ split_kernels_list sheet shape.width shape.height,
      ∃ row col, k = (List.range shape.height).flatMap (fun ky =>
        (List.range shape.width).map (fun kx =>
          ((sheet.get_pixel (col * shape.width + kx)
              (row * shape.height + ky) : ℚ) / 255) * 2 - 1)) := by
    intro k hk
    simp only [split_kernels_list, List.mem_flatMap, List.mem_map,
      List.mem_range] at hk
    obtain ⟨row, _, col, _, hk⟩ := hk
    exact ⟨row, col, hk.symm⟩
  refine ⟨?_, ?_, ?_, ?_⟩
  · simp only [split_kernels_list]
    rw [length_gridList, Nat.mul_comm]
  · intro k hk
    obtain ⟨row, col, rfl⟩ := hmem k hk
    rw [length_gridList, Nat.mul_comm]
  · intro row col ky kx hrow hcol hky hkx
    simp only [split_kernels_list]
    rw [getD_gridList hrow hcol, getD_gridList hky hkx]
  · intro k hk wgt hw
    obtain ⟨row, col, rfl⟩ := hmem k hk
    simp only [List.mem_flatMap, List.mem_map, List.mem_range] at hw
    obtain ⟨ky, _, kx, _, rfl⟩ := hw
    set p := sheet.get_pixel (col * shape.width + kx) (row * shape.height + ky)
      with hp
    have h255 : (p : ℚ) ≤ 255 := by
      exact_mod_cast Nat.cast_le.mpr (get_pixel_le_255 sheet hpix _ _)
    have hd1 : (p : ℚ) / 255 ≤ 1 := (div_le_one (by norm_num)).mpr h255
    have hd0 : (0 : ℚ) ≤ (p : ℚ) / 255 := by positivity
    constructor <;> linarith

/-- Witness for C2 at the spec's concrete 6×12 all-white sheet with the 3×6
shape: four kernels result. -/
theorem C2_split_kernels_spec_witness :
    (∀ p ∈ (GrayImage.mk 6 12 (List.replicate 72 255)).pixels, p ≤ 255) ∧
    (split_kernels_list ⟨6, 12, List.replicate 72 255⟩
        KernelShape.ThreeBySix.width KernelShape.ThreeBySix.height).length
      = ((GrayImage.mk 6 12 (List.replicate 72 255)).width /
          KernelShape.ThreeBySix.width) *
        ((GrayImage.mk 6 12 (List.replicate 72 255)).height /
          KernelShape.ThreeBySix.height) :=
  ⟨by decide,
    (C2_split_kernels_spec ⟨6, 12, List.replicate 72 255⟩ .ThreeBySix
      (by decide) (by decide) (by decide)).1⟩

/-! ### Concrete application traces -/

/-- A 1×1 all-black target image. -/
def slide1x1 : GrayImage := ⟨1, 1, [0]⟩

/-- A 3×6 all-black kernel sheet: divisible by the 3×6 shape but not by the
6×3 shape. -/
def sheet3x6 : GrayImage := ⟨3, 6, List.replicate 18 0⟩

/-- State after dropping the slide and then the sheet onto the fresh app. -/
def stateLoaded : AppState :=
  handle_dropped_file (handle_dropped_file initialApp (some (some slide1x1)))
    (some (some sheet3x6))

/-- State after a successful 3×6 split: the bank holds one kernel. -/
def stateSplit : AppState := split_kernels stateLoaded

/-- State after running the convolutions: one preview exists. -/
def stateRun : AppState := run_all_convolutions stateSplit

/-- C3 counterexample: from a reachable state whose bank holds one kernel,
a split that fails the divisibility check (3×6 sheet against the 6×3 shape:
`3 % 6 ≠ 0`) leaves the kernel bank exactly as it was — non-empty — refuting
"after every failed split the kernel bank is empty". -/
theorem C3_counterexample :
    (set_kernel_shape stateSplit .SixByThree).kernels_sheet = some sheet3x6 ∧
    (set_kernel_shape stateSplit .SixByThree).kernel_shape = .SixByThree ∧
    sheet3x6.width % KernelShape.SixByThree.width ≠ 0 ∧
    (split_kernels (set_kernel_shape stateSplit .SixByThree)).kernels
      = stateSplit.kernels ∧
    stateSplit.kernels ≠ [] :=
  ⟨rfl, rfl, by decide, rfl, by decide⟩

/-- C3 amended: a split request that fails the divisibility check produces no
kernels and leaves the kernel bank, the previews and the selection untouched
(the failure path returns before any clearing happens). -/
theorem C3_amended_failed_split_is_noop (s : AppState) (sheet : GrayImage)
    (hs : s.kernels_sheet = some sheet)
    (hfail : sheet.width % s.kernel_shape.width ≠ 0 ∨
             sheet.height % s.kernel_shape.height ≠ 0) :
    (split_kernels s).kernels = s.kernels ∧
    (split_kernels s).previews = s.previews ∧
    (split_kernels s).selected_kernel = s.selected_kernel := by
  simp only [split_kernels, hs]
  rw [if_pos hfail]
  exact ⟨rfl, rfl, rfl⟩

/-- Witness for the amended C3 at the concrete failing trace. -/
theorem C3_amended_failed_split_is_noop_witness :
    (split_kernels (set_kernel_shape stateSplit .SixByThree)).kernels
        = (set_kernel_shape stateSplit .SixByThree).kernels ∧
    (split_kernels (set_kernel_shape stateSplit .SixByThree)).previews
        = (set_kernel_shape stateSplit .SixByThree).previews ∧
    (split_kernels (set_kernel_shape stateSplit .SixByThree)).selected_kernel
        = (set_kernel_shape stateSplit .SixByThree).selected_kernel :=
  C3_amended_failed_split_is_noop _ sheet3x6 (by decide) (Or.inl (by decide))

/-- C4 counterexample: `stateRun` is reachable, holds a non-empty preview
list, and changing the kernel shape to the other variant leaves the previews
exactly as they were — refuting "the preview list is cleared whenever the
kernel shape changes". -/
theorem C4_counterexample :
    Reachable stateRun ∧
    stateRun.previews ≠ [] ∧
    stateRun.kernel_shape = .ThreeBySix ∧
    (set_kernel_shape stateRun .SixByThree).kernel_shape ≠ stateRun.kernel_shape ∧
    (set_kernel_shape stateRun .SixByThree).previews = stateRun.previews ∧
    (set_kernel_shape stateRun .SixByThree).previews ≠ [] := by
  refine ⟨?_, by decide, rfl, by decide, rfl, by decide⟩
  exact Reachable.run (Reachable.split
    (Reachable.drop _ (Reachable.drop _ Reachable.init)))

/-- C4 amended: the preview list is cleared whenever an image is successfully
loaded into either slot (and rebuilt or cleared by the split/run operations),
but merely changing the kernel shape does **not** clear it: the shape-change
event leaves the preview list unchanged. -/
theorem C4_amended_preview_invalidation :
    (∀ (s : AppState) (g : GrayImage) (b : Bool),
        (load_png_into_slot s (some g) b).previews = []) ∧
    (∀ (s : AppState) (sh : KernelShape),
        (set_kernel_shape s sh).previews = s.previews) :=
  ⟨fun s g b => by cases b <;> rfl, fun s sh => rfl⟩

/-! ### Preview normalization bytes -/

/-- Modelled from the claim's wording for C5: the scaled value is *rounded to
the nearest integer* and then clamped into `[0, 255]`. -/
def claim_byte_round (v min_v range : ℚ) : ℕ :=
  (min 255 (max 0 (round ((v - min_v) / range * 255)))).toNat

/-- The byte conversion the code performs, phrased arithmetically: the scaled
value is clamped into `[0, 255]` and truncated toward zero (floor). -/
def trunc_byte (v min_v range : ℚ) : ℕ :=
  (min 255 (max 0 ⌊(v - min_v) / range * 255⌋)).toNat

/-- Rust's `clamp(0.0, 255.0)` followed by `as u8` equals floor-then-clamp. -/
theorem rustAsU8_clamp_eq (q : ℚ) :
    rustAsU8 (rustClamp q 0 255) = (min 255 (max 0 ⌊q⌋)).toNat := by
  unfold rustAsU8 rustClamp
  rcases le_or_lt q 0 with h0 | h0
  · rw [min_eq_left (by linarith : q ≤ (255 : ℚ)), max_eq_left h0, if_pos le_rfl]
    rw [max_eq_left (Int.floor_nonpos h0), min_eq_right (by omega : (0 : ℤ) ≤ 255)]
    rfl
  · rcases le_or_lt 255 q with h255 | h255
    · rw [min_eq_right h255, max_eq_right (by norm_num : (0 : ℚ) ≤ 255)]
      rw [if_neg (by norm_num), if_pos le_rfl]
      have hf : (255 : ℤ) ≤ ⌊q⌋ := Int.le_floor.mpr (by exact_mod_cast h255)
      rw [max_eq_right (by omega : (0 : ℤ) ≤ ⌊q⌋), min_eq_left hf]
      rfl
    · rw [min_eq_left h255.le, max_eq_right h0.le]
      rw [if_neg (not_le.mpr h0), if_neg (not_le.mpr h255)]
      have hf0 : (0 : ℤ) ≤ ⌊q⌋ := Int.floor_nonneg.mpr h0.le
      have hf255 : ⌊q⌋ < 255 := Int.floor_lt.mpr (by exact_mod_cast h255)
      rw [max_eq_right hf0, min_eq_right hf255.le]

/-- C5 counterexample: for the response map `[0, 1/2, 1]` over a 3×1 target
with `max_dim = 256` (no downsampling, `min_v = 0`, `max_v = 1`, `range = 1`),
the middle value is scaled to `127.5`: the code's byte is `127` (truncation)
while the claim's round-to-nearest byte is `128`. -/
theorem C5_counterexample :
    (build_preview [0, 1/2, 1] 3 1 256).2.2 = [0, 127, 255] ∧
    resize_nearest [0, 1/2, 1] 3 1 3 1 = [0, 1/2, 1] ∧
    min_max [0, 1/2, 1] = (0, 1) ∧
    claim_byte_round (1/2) 0 (max ((1 : ℚ) - 0) (1 / 1000000)) = 128 ∧
    (127 : ℕ) ≠ 128 := by
  have hres : resize_nearest [0, 1/2, 1] 3 1 3 1 = [0, 1/2, 1] := by
    simp [resize_nearest, List.range_succ]
  have hmm : min_max [0, 1/2, 1] = (0, 1) := by
    norm_num [min_max]
  refine ⟨?_, hres, hmm, ?_, by decide⟩
  · simp only [build_preview]
    have houtw : max (rustRound (((3 : ℕ) : ℚ) *
        min (((256 : ℕ) : ℚ) / ((max (3 : ℕ) (1 : ℕ) : ℕ) : ℚ)) 1)) 1 = 3 := by
      norm_num [rustRound]
      decide
    have houth : max (rustRound (((1 : ℕ) : ℚ) *
        min (((256 : ℕ) : ℚ) / ((max (3 : ℕ) (1 : ℕ) : ℕ) : ℚ)) 1)) 1 = 1 := by
      norm_num [rustRound]
    rw [houtw, houth, hres, hmm]
    norm_num [rustAsU8, rustClamp]
    decide
  · norm_num [claim_byte_round, round_eq]
    decide

/-- C5 amended: the preview byte buffer maps every downsampled value `v` to
`clamp(0, 255, trunc((v - min_v) / range * 255))` — the scaled value is
clamped into `[0, 255]` and truncated toward zero (floor), not rounded. -/
theorem C5_amended_bytes_are_truncated (src : List ℚ)
    (width height max_dim : ℕ) :
    ∃ out_w out_h, build_preview src width height max_dim =
      (out_w, out_h,
        (resize_nearest src width height out_w out_h).map (fun v =>
          trunc_byte v
            (min_max (resize_nearest src width height out_w out_h)).1
            (max ((min_max (resize_nearest src width height out_w out_h)).2 -
                (min_max (resize_nearest src width height out_w out_h)).1)
              (1 / 1000000)))) := by
  refine ⟨max (rustRound ((width : ℚ) *
      min ((max_dim : ℚ) / ((max width height : ℕ) : ℚ)) 1)) 1,
    max (rustRound ((height : ℚ) *
      min ((max_dim : ℚ) / ((max width height : ℕ) : ℚ)) 1)) 1, ?_⟩
  simp only [build_preview, Prod.mk.injEq]
  refine ⟨trivial, trivial, ?_⟩
  refine List.map_congr_left ?_
  intro v _
  rw [rustAsU8_clamp_eq]
  rfl

/-! ### The score -/

/-- A sum of absolute values vanishes exactly when every entry is zero. -/
theorem abs_sum_eq_zero_iff (l : List ℚ) :
    (l.map (fun v => |v|)).sum = 0 ↔ ∀ v ∈ l, v = 0 := by
  induction l with
  | nil => simp
  | cons hd tl ih =>
    simp only [List.map_cons, List.sum_cons, List.mem_cons]
    have htl : 0 ≤ (tl.map (fun v => |v|)).sum := by
      apply List.sum_nonneg
      intro x hx
      obtain ⟨a, _, rfl⟩ := List.mem_map.mp hx
      exact abs_nonneg a
    have hhd : 0 ≤ |hd| := abs_nonneg hd
    constructor
    · intro hsum
      have h1 : |hd| = 0 := by linarith
      have h3 : (tl.map (fun v => |v|)).sum = 0 := by linarith
      rintro v (rfl | hv)
      · exact abs_eq_zero.mp h1
      · exact (ih.mp h3) v hv
    · intro hz
      rw [hz hd (Or.inl rfl), abs_zero, ih.mpr (fun v hv => hz v (Or.inr hv)),
        add_zero]

/-- C6: the score is the mean absolute response: the sum of `|response[i]|`
divided by `w*h`; it is non-negative, and zero exactly when the response map
is identically zero.  (Finiteness is inherent to the exact-rational model.) -/
theorem C6_score_spec (response : List ℚ) (w h : ℕ)
    (hw : 1 ≤ w) (hh : 1 ≤ h) (hlen : response.length = w * h) :
    score_of response
        = (response.map (fun v => |v|)).sum / ((w * h : ℕ) : ℚ) ∧
    0 ≤ score_of response ∧
    (score_of response = 0 ↔ ∀ v ∈ response, v = 0) := by
  have hsum0 : 0 ≤ (response.map (fun v => |v|)).sum := by
    apply List.sum_nonneg
    intro x hx
    obtain ⟨a, _, rfl⟩ := List.mem_map.mp hx
    exact abs_nonneg a
  have hlenpos : (0 : ℚ) < (response.length : ℚ) := by
    have hp : 0 < w * h := Nat.mul_pos hw hh
    rw [hlen]
    exact_mod_cast hp
  refine ⟨by rw [score_of, hlen], div_nonneg hsum0 hlenpos.le, ?_⟩
  rw [score_of, div_eq_zero_iff]
  constructor
  · rintro (hs | hl)
    · exact (abs_sum_eq_zero_iff response).mp hs
    · exact absurd hl (ne_of_gt hlenpos)
  · intro hz
    exact Or.inl ((abs_sum_eq_zero_iff response).mpr hz)

/-- Witness for C6 at the singleton response map `[0]` over a 1×1 target. -/
theorem C6_score_spec_witness :
    score_of [0]
        = (([0] : List ℚ).map (fun v => |v|)).sum / ((1 * 1 : ℕ) : ℚ) ∧
    0 ≤ score_of [0] ∧
    (score_of [0] = 0 ↔ ∀ v ∈ ([0] : List ℚ), v = 0) :=
  C6_score_spec [0] 1 1 le_rfl le_rfl rfl

/-! ### Preview dimensions -/

/-- `f32::round() as usize` of a value bounded by `n` is bounded by `n`. -/
theorem rustRound_le {q : ℚ} {n : ℕ} (hq : q ≤ n) : rustRound q ≤ n := by
  unfold rustRound
  have h2 : ⌊q + 1/2⌋ < (n : ℤ) + 1 := by
    apply Int.floor_lt.mpr
    push_cast
    linarith
  omega

/-- Bounds for one axis of the preview computation: the output dimension is
at least 1, at most the source dimension, and at most `max_dim`. -/
theorem preview_axis_bounds (dim maxwh md : ℕ) (hdim1 : 1 ≤ dim)
    (hmd : 1 ≤ md) (hle : dim ≤ maxwh) :
    1 ≤ max (rustRound ((dim : ℚ) * min ((md : ℚ) / (maxwh : ℚ)) 1)) 1 ∧
    max (rustRound ((dim : ℚ) * min ((md : ℚ) / (maxwh : ℚ)) 1)) 1 ≤ dim ∧
    max (rustRound ((dim : ℚ) * min ((md : ℚ) / (maxwh : ℚ)) 1)) 1 ≤ md := by
  have hmaxwh1 : 1 ≤ maxwh := le_trans hdim1 hle
  have hmw0 : (0 : ℚ) < (maxwh : ℚ) := by exact_mod_cast hmaxwh1
  have hscale1 : min ((md : ℚ) / (maxwh : ℚ)) 1 ≤ 1 := min_le_right _ _
  have hscale0 : 0 ≤ min ((md : ℚ) / (maxwh : ℚ)) 1 := by
    apply le_min
    · positivity
    · norm_num
  have hq_dim : (dim : ℚ) * min ((md : ℚ) / (maxwh : ℚ)) 1 ≤ dim := by
    calc (dim : ℚ) * min ((md : ℚ) / (maxwh : ℚ)) 1
        ≤ (dim : ℚ) * 1 := mul_le_mul_of_nonneg_left hscale1 (by positivity)
      _ = dim := mul_one _
  have hq_md : (dim : ℚ) * min ((md : ℚ) / (maxwh : ℚ)) 1 ≤ md := by
    rcases le_or_lt maxwh md with hcase | hcase
    · calc (dim : ℚ) * min ((md : ℚ) / (maxwh : ℚ)) 1
          ≤ dim := hq_dim
        _ ≤ md := by exact_mod_cast le_trans hle hcase
    · calc (dim : ℚ) * min ((md : ℚ) / (maxwh : ℚ)) 1
          ≤ (dim : ℚ) * ((md : ℚ) / (maxwh : ℚ)) :=
            mul_le_mul_of_nonneg_left (min_le_left _ _) (by positivity)
        _ ≤ (maxwh : ℚ) * ((md : ℚ) / (maxwh : ℚ)) :=
            mul_le_mul_of_nonneg_right (by exact_mod_cast hle) (by positivity)
        _ = md := by
            rw [mul_comm]
            exact div_mul_cancel₀ _ (ne_of_gt hmw0)
  exact ⟨le_max_right _ _, max_le (rustRound_le hq_dim) hdim1,
    max_le (rustRound_le hq_md) hmd⟩

/-- C7: for any source of size `width × height` (both ≥ 1) and any
`max_dim ≥ 1`, the preview dimensions are at least 1, never exceed the
source dimensions (never enlarge), and never exceed `max_dim`. -/
theorem C7_preview_dims (src : List ℚ) (width height max_dim : ℕ)
    (hw : 1 ≤ width) (hh : 1 ≤ height) (hmd : 1 ≤ max_dim) :
    (1 ≤ (build_preview src width height max_dim).1 ∧
      (build_preview src width height max_dim).1 ≤ width ∧
      (build_preview src width height max_dim).1 ≤ max_dim) ∧
    (1 ≤ (build_preview src width height max_dim).2.1 ∧
      (build_preview src width height max_dim).2.1 ≤ height ∧
      (build_preview src width height max_dim).2.1 ≤ max_dim) := by
  have e1 : (build_preview src width height max_dim).1
      = max (rustRound ((width : ℚ) *
          min ((max_dim : ℚ) / ((max width height : ℕ) : ℚ)) 1)) 1 := rfl
  have e2 : (build_preview src width height max_dim).2.1
      = max (rustRound ((height : ℚ) *
          min ((max_dim : ℚ) / ((max width height : ℕ) : ℚ)) 1)) 1 := rfl
  rw [e1, e2]
  exact ⟨preview_axis_bounds width (max width height) max_dim hw hmd
      (le_max_left _ _),
    preview_axis_bounds height (max width height) max_dim hh hmd
      (le_max_right _ _)⟩

/-- Witness for C7 at a 1000×1 response map with `max_dim = 256`. -/
theorem C7_preview_dims_witness :
    (1 ≤ (build_preview [0] 1000 1 256).1 ∧
      (build_preview [0] 1000 1 256).1 ≤ 1000 ∧
      (build_preview [0] 1000 1 256).1 ≤ 256) ∧
    (1 ≤ (build_preview [0] 1000 1 256).2.1 ∧
      (build_preview [0] 1000 1 256).2.1 ≤ 1 ∧
      (build_preview [0] 1000 1 256).2.1 ≤ 256) :=
  C7_preview_dims [0] 1000 1 256 (by decide) (by decide) (by decide)

/-! ### The all-zero kernel -/

/-- A fold that never changes the accumulator returns it unchanged. -/
theorem foldl_id (l : List ℕ) (a : ℚ) : l.foldl (fun acc _ => acc) a = a := by
  induction l generalizing a <;> simp [*]

/-- C8: with a kernel whose weights are all exactly 0, the response map is
identically zero at every pixel and the score is exactly 0. -/
theorem C8_zero_kernel (img : GrayImage) (kernel : List ℚ) (kw kh : ℕ)
    (hker : ∀ wgt ∈ kernel, wgt = 0) :
    (∀ v ∈ convolve_same (gray_to_f32 img) img.width img.height kernel kw kh,
        v = 0) ∧
    score_of (convolve_same (gray_to_f32 img) img.width img.height kernel kw kh)
        = 0 := by
  have hgetD : ∀ i, kernel.getD i 0 = 0 := by
    intro i
    by_cases hi : i < kernel.length
    · rw [List.getD_eq_getElem _ _ hi]
      exact hker _ (List.getElem_mem hi)
    · exact List.getD_eq_default _ _ (Nat.le_of_not_lt hi)
  have hall : ∀ v ∈ convolve_same (gray_to_f32 img) img.width img.height
      kernel kw kh, v = 0 := by
    intro v hv
    simp only [convolve_same, List.mem_flatMap, List.mem_map,
      List.mem_range] at hv
    obtain ⟨y, _, x, _, rfl⟩ := hv
    have hinner : ∀ (acc : ℚ), ∀ ky ∈ List.range kh,
        (List.range kw).foldl (fun acc (kx : ℕ) =>
          if 0 ≤ (x : ℤ) + kx - (kw / 2 : ℕ) ∧ 0 ≤ (y : ℤ) + ky - (kh / 2 : ℕ) ∧
              (x : ℤ) + kx - (kw / 2 : ℕ) < (img.width : ℤ) ∧
              (y : ℤ) + ky - (kh / 2 : ℕ) < (img.height : ℤ)
          then acc + (gray_to_f32 img).getD
              (((y : ℤ) + ky - (kh / 2 : ℕ)).toNat * img.width +
                ((x : ℤ) + kx - (kw / 2 : ℕ)).toNat) 0 *
              kernel.getD (ky * kw + kx) 0
          else acc) acc = acc := by
      intro acc ky _
      rw [foldl_ite_add_eq]
      have hz : ((List.range kw).map (fun (kx : ℕ) =>
          if 0 ≤ (x : ℤ) + kx - (kw / 2 : ℕ) ∧ 0 ≤ (y : ℤ) + ky - (kh / 2 : ℕ) ∧
              (x : ℤ) + kx - (kw / 2 : ℕ) < (img.width : ℤ) ∧
              (y : ℤ) + ky - (kh / 2 : ℕ) < (img.height : ℤ)
          then (gray_to_f32 img).getD
              (((y : ℤ) + ky - (kh / 2 : ℕ)).toNat * img.width +
                ((x : ℤ) + kx - (kw / 2 : ℕ)).toNat) 0 *
              kernel.getD (ky * kw + kx) 0
          else 0)).sum = 0 := by
        apply List.sum_eq_zero
        intro z hz
        obtain ⟨kx, _, rfl⟩ := List.mem_map.mp hz
        rw [hgetD, mul_zero, ite_self]
      rw [hz, add_zero]
    rw [List.foldl_ext _ _ 0 hinner, foldl_id]
  refine ⟨hall, ?_⟩
  rw [score_of, (abs_sum_eq_zero_iff _).mpr hall, zero_div]

/-- Witness for C8: an 18-weight all-zero 3×6 kernel over a 2×2 image. -/
theorem C8_zero_kernel_witness :
    (∀ v ∈ convolve_same (gray_to_f32 ⟨2, 2, [0, 255, 255, 0]⟩) 2 2
        (List.replicate 18 0) 3 6, v = 0) ∧
    score_of (convolve_same (gray_to_f32 ⟨2, 2, [0, 255, 255, 0]⟩) 2 2
        (List.replicate 18 0) 3 6) = 0 :=
  C8_zero_kernel ⟨2, 2, [0, 255, 255, 0]⟩ (List.replicate 18 0) 3 6
    (fun _ hw => List.eq_of_mem_replicate hw)

/-! ### Guarded convolution runs and image loads -/

/-- C9: a convolution run requested with no target image (`MissingImage`) or
with an empty kernel bank (`EmptyKernelBank`) is a no-op on core state: the
kernel bank, the preview list, the selection, both image slots and the shape
are left exactly as they were, and only the status message is surfaced. -/
theorem C9_run_guard_noop (s : AppState)
    (hguard : s.slide = none ∨ s.kernels = []) :
    (run_all_convolutions s).kernels = s.kernels ∧
    (run_all_convolutions s).previews = s.previews ∧
    (run_all_convolutions s).selected_kernel = s.selected_kernel ∧
    (run_all_convolutions s).slide = s.slide ∧
    (run_all_convolutions s).kernels_sheet = s.kernels_sheet ∧
    (run_all_convolutions s).kernel_shape = s.kernel_shape ∧
    ((run_all_convolutions s).status = "Load the histological slide first." ∨
      (run_all_convolutions s).status = "Split kernels first.") := by
  cases hslide : s.slide with
  | none =>
    simp only [run_all_convolutions, hslide]
    exact ⟨trivial, trivial, trivial, trivial, trivial, trivial, Or.inl trivial⟩
  | some slide =>
    have hk : s.kernels = [] := by
      rcases hguard with h | h
      · rw [hslide] at h
        exact absurd h (by simp)
      · exact h
    simp only [run_all_convolutions, hslide]
    rw [if_pos hk]
    exact ⟨rfl, rfl, rfl, rfl, rfl, rfl, Or.inr rfl⟩

/-- Witness for C9 at the fresh application state (no slide loaded). -/
theorem C9_run_guard_noop_witness :
    (run_all_convolutions initialApp).kernels = initialApp.kernels ∧
    (run_all_convolutions initialApp).previews = initialApp.previews ∧
    (run_all_convolutions initialApp).selected_kernel
      = initialApp.selected_kernel ∧
    (run_all_convolutions initialApp).slide = initialApp.slide ∧
    (run_all_convolutions initialApp).kernels_sheet
      = initialApp.kernels_sheet ∧
    (run_all_convolutions initialApp).kernel_shape
      = initialApp.kernel_shape ∧
    ((run_all_convolutions initialApp).status
        = "Load the histological slide first." ∨
      (run_all_convolutions initialApp).status = "Split kernels first.") :=
  C9_run_guard_noop initialApp (Or.inl rfl)

/-- C10: successfully loading a new image into either slot — the target
slide as well as the kernels sheet — clears the whole kernel bank, clears
the whole preview list, and resets the selected kernel index to 0, while the
other slot keeps its image. -/
theorem C10_load_resets_derived_state (s : AppState) (g : GrayImage)
    (b : Bool) :
    (load_png_into_slot s (some g) b).kernels = [] ∧
    (load_png_into_slot s (some g) b).previews = [] ∧
    (load_png_into_slot s (some g) b).selected_kernel = 0 ∧
    (load_png_into_slot s (some g) b).slide
      = (if b then some g else s.slide) ∧
    (load_png_into_slot s (some g) b).kernels_sheet
      = (if b then s.kernels_sheet else some g) := by
  cases b <;> simp [load_png_into_slot]
